import Mathlib

/-!
Verification development for gogitfame (src/cmd/gitfame/main.go and the
configs package). The statistics engine is embedded shallowly: the external
git collaborators (ls-tree, blame, log) are modelled as explicit inputs, Go
maps as association lists, Go map[string]struct sets as Finsets, and a Go
index-out-of-range panic as an Option none result. Go stdlib string helpers
(strings.Split with a one-character separator, strings.HasSuffix,
strings.TrimPrefix, strconv.Atoi, strings.ToLower on ASCII names, string
comparison, path/filepath.Match) are given reference implementations over
character lists.
-/

namespace Gitfame

/-! ### Go string primitives -/

/-- Model of the byte-wise Go string comparison a less b (UTF-8 byte order
agrees with code-point order). Used by sortByConfig for Name. -/
def charListLt : List Char → List Char → Bool
  | [], [] => false
  | [], _ :: _ => true
  | _ :: _, [] => false
  | a :: as, b :: bs => if a < b then true else if b < a then false else charListLt as bs

/-- Split a character list on a separator character; models strings.Split for a
one-character separator (both call sites split on a single newline or space). -/
def splitChar (sep : Char) : List Char → List (List Char)
  | [] => [[]]
  | c :: rest =>
    let r := splitChar sep rest
    if c = sep then [] :: r
    else
      match r with
      | [] => [[c]]
      | h :: t => (c :: h) :: t

/-- Model of strings.Split s sep for a one-character sep. -/
def goSplit (s : String) (sep : Char) : List String :=
  (splitChar sep s.data).map (fun cs => String.mk cs)

/-- pre is a prefix of s, over character lists. -/
def charsHavePre : List Char → List Char → Bool
  | [], _ => true
  | _ :: _, [] => false
  | a :: as, b :: bs => a = b && charsHavePre as bs

/-- Model of strings.HasSuffix s suffix. -/
def goHasSuffix (s suffix : String) : Bool :=
  charsHavePre suffix.data.reverse s.data.reverse

/-- Model of strings.TrimPrefix s pre. -/
def goTrimPre (s pre : String) : String :=
  if charsHavePre pre.data s.data then String.mk (s.data.drop pre.data.length) else s

/-- Digits of a decimal numeral to a Nat. -/
def digitsToNat (cs : List Char) : Nat :=
  cs.foldl (fun a c => a * 10 + (c.toNat - 48)) 0

/-- Model of strconv.Atoi: optional sign, at least one digit, nothing else
(overflow is ignored; the blame line counts in scope are small). none models
the error return. -/
def goAtoi (s : String) : Option Int :=
  match s.data with
  | [] => none
  | '+' :: rest =>
    if !rest.isEmpty && rest.all Char.isDigit then some (digitsToNat rest : Int) else none
  | '-' :: rest =>
    if !rest.isEmpty && rest.all Char.isDigit then some (-(digitsToNat rest : Int)) else none
  | cs =>
    if cs.all Char.isDigit then some (digitsToNat cs : Int) else none

/-- Model of strings.ToLower, ASCII-only (the language names it is applied to
are ASCII). -/
def goToLower (s : String) : String :=
  String.mk (s.data.map Char.toLower)

/-- Model of path/filepath.Ext: the suffix beginning at the final dot in the
final slash-separated element, including the dot; empty if there is no dot. -/
def extFromRev : List Char → List Char → String
  | [], _ => ""
  | c :: rest, acc =>
    if c = '/' then ""
    else if c = '.' then String.mk ('.' :: acc)
    else extFromRev rest (c :: acc)

def goExt (p : String) : String :=
  extFromRev p.data.reverse []

/-! ### path/filepath.Match (glob) model

The callers write matched, _ := filepath.Match(pattern, file) and ignore the
error, so a malformed pattern behaves as a non-match; the model returns false
for malformed patterns directly. -/

/-- Read one (possibly backslash-escaped) character of a character class;
none models ErrBadPattern. -/
def getEsc : List Char → Option (Char × List Char)
  | [] => none
  | c :: rest =>
    if c = '-' then none
    else if c = ']' then none
    else if c = '\\' then
      match rest with
      | [] => none
      | d :: rest2 => some (d, rest2)
    else some (c, rest)

/-- The high end of one class range: either lo itself, or the character after
a dash. -/
def getHi (lo : Char) (cs : List Char) : Option (Char × List Char) :=
  match cs with
  | [] => some (lo, [])
  | a :: t => if a = '-' then getEsc t else some (lo, a :: t)

/-- Strict length bound for getEsc, stated as a definitionally transparent
auxiliary Prop so the class parser below can justify its termination. -/
def escShrinks (cs : List Char) : Prop :=
  ∀ c rest, getEsc cs = some (c, rest) → rest.length < cs.length

/-- Parse the body of a character class (after the opening bracket and the
optional negation caret): one or more ranges followed by the closing bracket;
none models ErrBadPattern. -/
def parseRanges (cs : List Char) : Option (List (Char × Char) × List Char) :=
  match h1 : getEsc cs with
  | none => none
  | some (lo, cs1) =>
    match h2 : getHi lo cs1 with
    | none => none
    | some (hi, cs2) =>
      if cs2.head? = some ']' then
        some ([(lo, hi)], cs2.tail)
      else
        match parseRanges cs2 with
        | none => none
        | some (rs, rest) => some ((lo, hi) :: rs, rest)
termination_by cs.length
decreasing_by
  have hesc : ∀ ds : List Char, escShrinks ds := by
    intro ds c rest h
    cases ds with
    | nil => simp [getEsc] at h
    | cons a t =>
      simp only [getEsc] at h
      split_ifs at h
      · cases t with
        | nil => simp at h
        | cons d t2 =>
          simp only [Option.some.injEq, Prod.mk.injEq] at h
          obtain ⟨_, h2d⟩ := h
          subst h2d
          simp
          omega
      · simp only [Option.some.injEq, Prod.mk.injEq] at h
        obtain ⟨_, h2d⟩ := h
        subst h2d
        simp
  have hone : cs1.length < cs.length := hesc cs lo cs1 h1
  have htwo : cs2.length ≤ cs1.length := by
    cases cs1 with
    | nil =>
      simp only [getHi, Option.some.injEq, Prod.mk.injEq] at h2
      obtain ⟨_, h2d⟩ := h2
      subst h2d
      simp
    | cons a t =>
      simp only [getHi] at h2
      split_ifs at h2
      · have := hesc t hi cs2 h2
        simp
        omega
      · simp only [Option.some.injEq, Prod.mk.injEq] at h2
        obtain ⟨_, h2d⟩ := h2
        subst h2d
        simp
  omega

/-- Model of path/filepath.Match pattern name with separator slash: star
matches any run of non-separator characters, question mark one non-separator
character, a bracket class one character against ranges (with optional caret
negation), backslash escapes, and anything else literally; the whole name must
be consumed. Malformed patterns yield false (the callers discard the error). -/
def globMatch : List Char → List Char → Bool
  | [], [] => true
  | [], _ :: _ => false
  | '*' :: p, n =>
    globMatch p n ||
      (match n with
       | [] => false
       | c :: n2 => if c = '/' then false else globMatch ('*' :: p) n2)
  | '?' :: p, n =>
    (match n with
     | [] => false
     | c :: n2 => if c = '/' then false else globMatch p n2)
  | '[' :: p, n =>
    (match n with
     | [] => false
     | c :: n2 =>
       let negBody : Bool × List Char :=
         match p with
         | '^' :: p2 => (true, p2)
         | _ => (false, p)
       match parseRanges negBody.2 with
       | none => false
       | some (rs, rest) =>
         let inRange := rs.any (fun r => decide (r.1 ≤ c) && decide (c ≤ r.2))
         if inRange = negBody.1 then false else globMatch rest n2)
  | '\\' :: p, n =>
    (match p, n with
     | e :: p2, c :: n2 => if e = c then globMatch p2 n2 else false
     | _, _ => false)
  | ch :: p, n =>
    (match n with
     | [] => false
     | c :: n2 => if ch = c then globMatch p n2 else false)
termination_by p n => (n.length, p.length)

/-- filepath.Match as called by the filter: matched, _ := Match(pattern, file),
the error discarded. -/
def filepathMatch (pattern file : String) : Bool :=
  globMatch pattern.data file.data

/-! ### Configuration and the file filter (main.go) -/

/-- The fields of Config consumed by the core engine (Repository and Revision
only parameterize the external git queries, Format only the output layer). -/
structure Config where
  orderBy : String
  useCommitter : Bool
  extensions : List String
  languages : List String
  exclude : List String
  restrictTo : List String
  extensionsMap : List (String × List String)

/-- Go map lookup for the extensions map (association list; keys unique by
construction in LoadExtensionsMap). -/
def mapLookup (m : List (String × List String)) (k : String) : Option (List String) :=
  match m with
  | [] => none
  | (k2, v) :: rest => if k2 = k then some v else mapLookup rest k

def matchesExtensions (file : String) (extensions : List String) : Bool :=
  if extensions.isEmpty then true
  else extensions.any (fun ext => goHasSuffix file ext)

def matchesExcludePatterns (file : String) (patterns : List String) : Bool :=
  if patterns.isEmpty then true
  else !(patterns.any (fun pattern => filepathMatch pattern file))

def matchesRestrictToPatterns (file : String) (patterns : List String) : Bool :=
  if patterns.isEmpty then true
  else patterns.any (fun pattern => filepathMatch pattern file)

def matchesLanguage (filePath : String) (config : Config) : Bool :=
  if config.languages.isEmpty then true
  else
    config.languages.any (fun allowedLang =>
      match mapLookup config.extensionsMap (goToLower allowedLang) with
      | some existedLang =>
        existedLang.any (fun allowedExtension =>
          goHasSuffix (goExt filePath) allowedExtension)
      | none => false)

/-- The conjunction evaluated inside the goroutine of parallelFilter. -/
def passesFilter (file : String) (config : Config) : Bool :=
  matchesExtensions file config.extensions &&
  matchesExcludePatterns file config.exclude &&
  matchesRestrictToPatterns file config.restrictTo &&
  matchesLanguage file config

/-- Model of parallelFilter: the Go version evaluates every file in its own
goroutine, sends the matches on a channel, and closes the channel after the
WaitGroup barrier; the model returns the multiset of emitted paths (listed in
input order — the consumer treats the stream as unordered). -/
def parallelFilter (files : List String) (config : Config) : List String :=
  files.filter (fun file => passesFilter file config)

/-! ### Per-actor statistics (main.go) -/

/-- ActorStats: commitsSet is the Go map[string]struct set of commit ids (a
nil map is modelled as the empty set); Commits is materialized from it only by
the finalization loop of aggregateStats. -/
structure ActorStats where
  name : String
  lines : Int
  commitsSet : Finset String
  commits : Int
  files : Int
deriving DecidableEq

/-- The Go zero value ActorStats, returned by infoEmptyFile when git log
fails. -/
def ActorStats.zero : ActorStats :=
  { name := "", lines := 0, commitsSet := ∅, commits := 0, files := 0 }

/-- Go map identity to ActorStats, as an association list without duplicate
keys. -/
abbrev StatsMap := List (String × ActorStats)

def findStat : StatsMap → String → Option ActorStats
  | [], _ => none
  | (k, v) :: rest, a => if k = a then some v else findStat rest a

def insertStat : StatsMap → String → ActorStats → StatsMap
  | [], k, v => [(k, v)]
  | (k2, v2) :: rest, k, v =>
    if k2 = k then (k, v) :: rest else (k2, v2) :: insertStat rest k v

/-! ### Attribution extraction (infoEmptyFile / calculateStats) -/

/-- Model of infoEmptyFile: logOut is the output of the external
git log -n 1 --pretty=format:H-then-newline-then-an query (none models a
cmd.Run error, in which case the Go code returns the zero ActorStats). The
code reads line[0] and line[1] of the newline split; a missing line[1] is a Go
index-out-of-range panic, modelled as none. -/
def infoEmptyFile (logOut : Option String) : Option ActorStats :=
  match logOut with
  | none => some ActorStats.zero
  | some out =>
    match goSplit out '\n' with
    | commitHash :: actor :: _ =>
      some { name := actor, lines := 0, commitsSet := {commitHash}, commits := 0, files := 1 }
    | _ => none

/-- One hexadecimal character of the commit id class, lowercase letters and
digits. -/
def isHexLower (c : Char) : Bool :=
  c.isDigit || ('a' ≤ c && c ≤ 'f')

/-- Consume exactly n hex characters. -/
def skipHex : Nat → List Char → Option (List Char)
  | 0, cs => some cs
  | _ + 1, [] => none
  | n + 1, c :: cs => if isHexLower c then skipHex n cs else none

/-- Consume a maximal nonempty digit run. -/
def skipDigits1 (cs : List Char) : Option (List Char) :=
  let ds := cs.takeWhile Char.isDigit
  if ds.isEmpty then none else some (cs.dropWhile Char.isDigit)

/-- Model of commitLineRegexp.MatchString for the anchored pattern: optional
caret, exactly forty hex characters, then three space-separated decimal
fields (anything may follow the third). The pattern is deterministic, so
greedy scanning is exact. -/
def commitLineMatch (s : String) : Bool :=
  let cs :=
    match s.data with
    | '^' :: r => r
    | r => r
  match skipHex 40 cs with
  | none => false
  | some r1 =>
    match r1 with
    | ' ' :: r2 =>
      match skipDigits1 r2 with
      | none => false
      | some r3 =>
        match r3 with
        | ' ' :: r4 =>
          match skipDigits1 r4 with
          | none => false
          | some r5 =>
            match r5 with
            | ' ' :: r6 => (skipDigits1 r6).isSome
            | _ => false
        | _ => false
    | _ => false

/-- The per-record map update of calculateStats: insert a fresh entry with
Files one and an empty commit set when the actor is unseen, then add the line
count, set the name, and insert the commit hash. -/
def updateStats (acc : StatsMap) (actor commitHash : String) (nLines : Int) : StatsMap :=
  let base :=
    match findStat acc actor with
    | some s => s
    | none => { name := "", lines := 0, commitsSet := ∅, commits := 0, files := 1 }
  insertStat acc actor
    { base with
      lines := base.lines + nLines
      name := actor
      commitsSet := insert commitHash base.commitsSet }

/-- The scanning loop of calculateStats over the newline-split blame output,
written over the remaining suffix of the line list. On a header match it
reads parts 0 and 3 of the space split, lines at offset one (and five under
UseCommitter); a missing index is a Go panic, modelled as none. On an Atoi
error the loop advances by two (the increment inside the loop body plus the
one of the for statement). -/
def csLoop (uc : Bool) : List String → StatsMap → Option StatsMap
  | [], acc => some acc
  | li :: rest, acc =>
    if commitLineMatch li then
      match goSplit li ' ' with
      | [] => none
      | commitHash :: _ =>
        match (goSplit li ' ')[3]? with
        | none => none
        | some p3 =>
          match goAtoi p3 with
          | none =>
            match rest with
            | [] => some acc
            | _ :: rest2 => csLoop uc rest2 acc
          | some nLines =>
            match rest[0]? with
            | none => none
            | some l1 =>
              match
                (if uc then (rest[4]?).map (fun l5 => goTrimPre l5 "committer ")
                 else some (goTrimPre l1 "author ")) with
              | none => none
              | some actor => csLoop uc rest (updateStats acc actor commitHash nLines)
    else csLoop uc rest acc

/-- Model of calculateStats: blame is the git blame --line-porcelain output
(none models a cmd.Run error, for which the Go code returns a nil map), and
logOut the git log output consumed by infoEmptyFile on the empty-blame
fallback path. A none result models a Go panic. -/
def calculateStats (blame : Option String) (logOut : Option String) (uc : Bool) :
    Option StatsMap :=
  match blame with
  | none => some []
  | some out =>
    if out = "" then
      match infoEmptyFile logOut with
      | none => none
      | some stats => some [(stats.name, stats)]
    else
      csLoop uc (goSplit out '\n') []

/-! ### Aggregation (aggregateStats) -/

/-- Merging one per-file entry into the shared accumulator: sum Lines and
Files, union the commit sets; a fresh actor is inserted as is. -/
def mergeOne (acc : StatsMap) (e : String × ActorStats) : StatsMap :=
  match findStat acc e.1 with
  | some existing =>
    insertStat acc e.1
      { existing with
        lines := existing.lines + e.2.lines
        files := existing.files + e.2.files
        commitsSet := existing.commitsSet ∪ e.2.commitsSet }
  | none => insertStat acc e.1 e.2

/-- The finalization loop: Commits becomes the cardinality of the accumulated
commit set. -/
def finalizeStats (m : StatsMap) : StatsMap :=
  m.map (fun e => (e.1, { e.2 with commits := (e.2.commitsSet.card : Int) }))

/-- Model of aggregateStats: results holds the per-file calculateStats maps in
channel arrival order (empty list entries for failed files). -/
def aggregateStats (results : List StatsMap) : StatsMap :=
  finalizeStats (results.foldl (fun acc m => m.foldl mergeOne acc) [])

/-! ### Ranking (sortByConfig) -/

/-- The comparator passed to sort.Slice by sortByConfig. -/
def lessCfg (orderBy : String) (x y : ActorStats) : Bool :=
  if x.commits = y.commits ∧ x.lines = y.lines ∧ x.files = y.files then
    charListLt x.name.data y.name.data
  else if orderBy = "commits" then
    if x.commits ≠ y.commits then decide (x.commits > y.commits)
    else if x.lines ≠ y.lines then decide (x.lines > y.lines)
    else decide (x.files > y.files)
  else if orderBy = "files" then
    if x.files ≠ y.files then decide (x.files > y.files)
    else if x.lines ≠ y.lines then decide (x.lines > y.lines)
    else decide (x.commits > y.commits)
  else
    if x.lines ≠ y.lines then decide (x.lines > y.lines)
    else if x.commits ≠ y.commits then decide (x.commits > y.commits)
    else decide (x.files > y.files)

/-- Ordered insertion for the sort model. -/
def insertBy (less : ActorStats → ActorStats → Bool) (x : ActorStats) :
    List ActorStats → List ActorStats
  | [] => [x]
  | y :: rest => if less x y then x :: y :: rest else y :: insertBy less x rest

/-- Model of sortByConfig (sort.Slice with lessCfg: any correct sort; the
comparator is total on the observable quadruples, so the sorted permutation
is unique). -/
def sortByConfig (actors : List ActorStats) (orderBy : String) : List ActorStats :=
  actors.foldr (insertBy (lessCfg orderBy)) []

/-! ### The configs package (src/unnamed/part 000) -/

structure LanguageExtension where
  name : String
  extensions : List String

/-- Append one extension under a key of the extensions map. -/
def appendAt (m : List (String × List String)) (k : String) (v : String) :
    List (String × List String) :=
  match m with
  | [] => [(k, [v])]
  | (k2, vs) :: rest =>
    if k2 = k then (k2, vs ++ [v]) :: rest else (k2, vs) :: appendAt rest k v

/-- Model of configs.LoadExtensionsMap applied to the decoded
language extensions JSON records: every extension of every language is
appended under the lowercased language name. -/
def LoadExtensionsMap (languages : List LanguageExtension) :
    List (String × List String) :=
  languages.foldl
    (fun m lang =>
      lang.extensions.foldl (fun m2 ext => appendAt m2 (goToLower lang.name) ext) m)
    []

/-! ### Derived notions used by the statements -/

/-- All entries contributed for identity a across the per-file results, in
arrival order. -/
def entriesFor (a : String) (results : List StatsMap) : List (String × ActorStats) :=
  results.flatten.filter (fun e => e.1 = a)

/-- Union of a list of finite sets. -/
def unionList (l : List (Finset String)) : Finset String :=
  l.foldr (fun s t => s ∪ t) ∅

/-- The union of the per-file commit-identifier sets attributed to a. -/
def unionCommits (a : String) (results : List StatsMap) : Finset String :=
  unionList ((entriesFor a results).map (fun e => e.2.commitsSet))

/-- Merging a stream of per-file entries for one key into an optional
accumulator cell; mirrors what mergeOne does at a single key. -/
def combineCell (o : Option ActorStats) (e : String × ActorStats) : Option ActorStats :=
  match o with
  | some ex =>
    some { ex with
           lines := ex.lines + e.2.lines
           files := ex.files + e.2.files
           commitsSet := ex.commitsSet ∪ e.2.commitsSet }
  | none => some e.2

/-- Well-formedness of a blame line list for the scanning loop: every line
matched as a record header has a fourth space-separated field and is followed
by at least one further line (five further lines when UseCommitter). Real
git blame porcelain output satisfies this. -/
def headerOk (uc : Bool) (lines : List String) : Prop :=
  ∀ i ∈ List.range lines.length,
    commitLineMatch (lines.getD i "") = true →
      ((goSplit (lines.getD i "") ' ')[3]?).isSome = true ∧
      i + 1 < lines.length ∧
      (uc = true → i + 5 < lines.length)

instance (uc : Bool) (lines : List String) : Decidable (headerOk uc lines) := by
  unfold headerOk
  infer_instance

/-- Spec ordering for orderBy lines, written from the spec cascade: Lines
desc, then Commits desc, then Files desc, then Name asc. -/
def specLinesLess (x y : ActorStats) : Bool :=
  if x.lines ≠ y.lines then decide (x.lines > y.lines)
  else if x.commits ≠ y.commits then decide (x.commits > y.commits)
  else if x.files ≠ y.files then decide (x.files > y.files)
  else charListLt x.name.data y.name.data

/-- Spec ordering for orderBy commits: Commits desc, Lines desc, Files desc,
Name asc. -/
def specCommitsLess (x y : ActorStats) : Bool :=
  if x.commits ≠ y.commits then decide (x.commits > y.commits)
  else if x.lines ≠ y.lines then decide (x.lines > y.lines)
  else if x.files ≠ y.files then decide (x.files > y.files)
  else charListLt x.name.data y.name.data

/-- Spec ordering for orderBy files: Files desc, Lines desc, Commits desc,
Name asc. -/
def specFilesLess (x y : ActorStats) : Bool :=
  if x.files ≠ y.files then decide (x.files > y.files)
  else if x.lines ≠ y.lines then decide (x.lines > y.lines)
  else if x.commits ≠ y.commits then decide (x.commits > y.commits)
  else charListLt x.name.data y.name.data

/-- Modelled from the claim wording of C9: the portion of the path after the
last dot (empty when the path has no dot). -/
def portionAfterLastDot (p : String) : String :=
  if p.data.contains '.' then
    String.mk ((p.data.reverse.takeWhile (fun c => c ≠ '.')).reverse)
  else ""

/-- Modelled from the claim wording of C9: the two strings share a non-empty
common suffix. -/
def hasNonemptyCommonSuffix (a b : String) : Bool :=
  (List.range (a.data.length + 1)).any (fun i =>
    let s := a.data.drop i
    !s.isEmpty && charsHavePre s.reverse b.data.reverse)

/-- Modelled from the claim wording of C9: the language allow-list predicate
as the claim states it — empty list passes, otherwise the portion of the path
after the last dot must share a non-empty common suffix with an extension
registered for a requested language (names matched case-insensitively). -/
def claimLanguagePasses (path : String) (config : Config) : Bool :=
  config.languages.isEmpty ||
  config.languages.any (fun lang =>
    match mapLookup config.extensionsMap (goToLower lang) with
    | some exts =>
      exts.any (fun e => hasNonemptyCommonSuffix (portionAfterLastDot path) e)
    | none => false)

/-! ### Concrete inputs for witnesses and counterexamples -/

/-- A forty-character commit id. -/
def hexA : String := String.mk (List.replicate 40 'a')

/-- A second forty-character commit id. -/
def hexB : String := String.mk (List.replicate 40 'b')

/-- A well-formed blame header attributing two lines to hexA. -/
def hdrA : String := hexA ++ " 1 1 2"

/-- A header whose fourth field is not a number (the regexp still matches
because only a prefix is anchored). -/
def hdrBad : String := hexA ++ " 1 1 1x"

/-- A blame output with one record: two lines by Bob in commit hexA. -/
def blameBob : String := hdrA ++ "\nauthor Bob"

/-- A config selecting go files by language. -/
def cfgGo : Config :=
  { orderBy := "lines", useCommitter := false, extensions := [], languages := ["go"],
    exclude := [], restrictTo := [], extensionsMap := [("go", [".go"])] }

/-- A config filtering on the dot-go extension only. -/
def cfgExt : Config :=
  { orderBy := "lines", useCommitter := false, extensions := [".go"], languages := [],
    exclude := [], restrictTo := [], extensionsMap := [] }

/-- The three actors of the ranking regression test. -/
def actorBob : ActorStats :=
  { name := "Bob", lines := 100, commitsSet := ∅, commits := 5, files := 2 }

def actorAlice : ActorStats :=
  { name := "Alice", lines := 100, commitsSet := ∅, commits := 3, files := 2 }

def actorZoe : ActorStats :=
  { name := "Zoe", lines := 50, commitsSet := ∅, commits := 9, files := 1 }

/-- The stat cell produced by the blameBob record. -/
def statBob : ActorStats :=
  { name := "Bob", lines := 2, commitsSet := {hexA}, commits := 0, files := 1 }

/-- Two per-file results carrying the same commit id for A, for the
union-not-sum witnesses. -/
def resTwoFiles : List StatsMap :=
  [[("A", { name := "A", lines := 3, commitsSet := {hexA}, commits := 0, files := 1 })],
   [("A", { name := "A", lines := 4, commitsSet := {hexA}, commits := 0, files := 1 })]]

/-- resTwoFiles in the opposite arrival order. -/
def resTwoFilesRev : List StatsMap :=
  [[("A", { name := "A", lines := 4, commitsSet := {hexA}, commits := 0, files := 1 })],
   [("A", { name := "A", lines := 3, commitsSet := {hexA}, commits := 0, files := 1 })]]

/-- The aggregate the two files above produce for A: lines summed, commit
counted once. -/
def statA7 : ActorStats :=
  { name := "A", lines := 7, commitsSet := {hexA}, commits := 1, files := 2 }

/-- The fallback stat of the Carol example. -/
def statCarol : ActorStats :=
  { name := "Carol", lines := 0, commitsSet := {"abc"}, commits := 0, files := 1 }

/-- A second well-formed blame header, three lines in commit hexB. -/
def hdrGood : String := hexB ++ " 1 1 3"

/-! ## Association map lemmas -/

theorem findStat_insertStat (m : StatsMap) (k : String) (v : ActorStats) (a : String) :
    findStat (insertStat m k v) a = if k = a then some v else findStat m a := by
  induction m with
  | nil => simp [insertStat, findStat]
  | cons e rest ih =>
    obtain ⟨k2, v2⟩ := e
    by_cases hk : k2 = k
    · subst hk
      simp only [insertStat, if_pos rfl, findStat]
      split_ifs <;> rfl
    · simp only [insertStat, if_neg hk, findStat]
      by_cases ha : k2 = a
      · have hka : ¬ (k = a) := fun h => hk (ha.trans h.symm)
        rw [if_pos ha, if_neg hka, if_pos ha]
      · rw [if_neg ha, ih, if_neg ha]

theorem mem_insertStat (m : StatsMap) (k : String) (v : ActorStats)
    (p : String × ActorStats) : p ∈ insertStat m k v → p = (k, v) ∨ p ∈ m := by
  induction m with
  | nil =>
    intro hp
    rw [show insertStat [] k v = [(k, v)] from rfl] at hp
    exact Or.inl (List.mem_singleton.mp hp)
  | cons e rest ih =>
    obtain ⟨k2, v2⟩ := e
    intro hp
    by_cases hk : k2 = k
    · rw [show insertStat ((k2, v2) :: rest) k v = (k, v) :: rest from by
        simp [insertStat, hk]] at hp
      rcases List.mem_cons.mp hp with h1 | h1
      · exact Or.inl h1
      · exact Or.inr (List.mem_cons_of_mem _ h1)
    · rw [show insertStat ((k2, v2) :: rest) k v = (k2, v2) :: insertStat rest k v from by
        simp [insertStat, hk]] at hp
      rcases List.mem_cons.mp hp with h1 | h1
      · refine Or.inr ?_
        rw [h1]
        exact List.mem_cons_self _ _
      · rcases ih h1 with h2 | h2
        · exact Or.inl h2
        · exact Or.inr (List.mem_cons_of_mem _ h2)

theorem findStat_mem (m : StatsMap) (a : String) (s : ActorStats) :
    findStat m a = some s → (a, s) ∈ m := by
  induction m with
  | nil => intro h; simp [findStat] at h
  | cons e rest ih =>
    obtain ⟨k, v⟩ := e
    intro h
    simp only [findStat] at h
    by_cases hk : k = a
    · rw [if_pos hk] at h
      subst hk
      obtain rfl : v = s := Option.some.inj h
      exact List.mem_cons_self _ _
    · rw [if_neg hk] at h
      exact List.mem_cons_of_mem _ (ih h)

/-! ## Aggregation characterization -/

theorem findStat_mergeOne (m : StatsMap) (e : String × ActorStats) (a : String) :
    findStat (mergeOne m e) a =
      if e.1 = a then combineCell (findStat m a) e else findStat m a := by
  unfold mergeOne
  cases hm : findStat m e.1 with
  | some ex =>
    rw [findStat_insertStat]
    by_cases he : e.1 = a
    · subst he
      rw [if_pos rfl, if_pos rfl, hm]
      rfl
    · rw [if_neg he, if_neg he]
  | none =>
    rw [findStat_insertStat]
    by_cases he : e.1 = a
    · subst he
      rw [if_pos rfl, if_pos rfl, hm]
      rfl
    · rw [if_neg he, if_neg he]

theorem foldl_mergeOne_flatten (results : List StatsMap) (init : StatsMap) :
    results.foldl (fun acc m => m.foldl mergeOne acc) init =
      results.flatten.foldl mergeOne init := by
  induction results generalizing init with
  | nil => rfl
  | cons m rest ih => simp [List.flatten_cons, List.foldl_append, ih]

theorem findStat_foldl_mergeOne (L : List (String × ActorStats)) (m : StatsMap) (a : String) :
    findStat (L.foldl mergeOne m) a =
      (L.filter (fun e => e.1 = a)).foldl combineCell (findStat m a) := by
  induction L generalizing m with
  | nil => rfl
  | cons e rest ih =>
    rw [List.foldl_cons, ih, findStat_mergeOne]
    by_cases he : e.1 = a
    · rw [if_pos he, List.filter_cons_of_pos (by simpa using he), List.foldl_cons]
    · rw [if_neg he, List.filter_cons_of_neg (by simpa using he)]

theorem foldl_combineCell_some (L : List (String × ActorStats)) (s : ActorStats) :
    L.foldl combineCell (some s) =
      some { name := s.name,
             lines := s.lines + (L.map (fun e => e.2.lines)).sum,
             commitsSet := s.commitsSet ∪ unionList (L.map (fun e => e.2.commitsSet)),
             commits := s.commits,
             files := s.files + (L.map (fun e => e.2.files)).sum } := by
  induction L generalizing s with
  | nil => simp [unionList]
  | cons e rest ih =>
    rw [List.foldl_cons]
    show rest.foldl combineCell
        (some { s with
                lines := s.lines + e.2.lines
                files := s.files + e.2.files
                commitsSet := s.commitsSet ∪ e.2.commitsSet }) = _
    rw [ih]
    simp only [List.map_cons, List.sum_cons, unionList, List.foldr_cons]
    congr 1
    simp [add_assoc, Finset.union_assoc]

theorem foldl_combineCell_cons (e : String × ActorStats) (es : List (String × ActorStats)) :
    (e :: es).foldl combineCell none =
      some { name := e.2.name,
             lines := (List.map (fun x => x.2.lines) (e :: es)).sum,
             commitsSet := unionList (List.map (fun x => x.2.commitsSet) (e :: es)),
             commits := e.2.commits,
             files := (List.map (fun x => x.2.files) (e :: es)).sum } := by
  rw [List.foldl_cons]
  show es.foldl combineCell (some e.2) = _
  rw [foldl_combineCell_some]
  simp [unionList]

theorem findStat_finalize (m : StatsMap) (a : String) :
    findStat (finalizeStats m) a =
      (findStat m a).map (fun s => { s with commits := (s.commitsSet.card : Int) }) := by
  induction m with
  | nil => rfl
  | cons e rest ih =>
    obtain ⟨k, v⟩ := e
    by_cases hk : k = a
    · subst hk
      simp [finalizeStats, findStat]
    · simp only [finalizeStats, List.map_cons, findStat, if_neg hk]
      simpa [finalizeStats] using ih

theorem findStat_aggregate (results : List StatsMap) (a : String) :
    findStat (aggregateStats results) a =
      ((entriesFor a results).foldl combineCell none).map
        (fun s => { s with commits := (s.commitsSet.card : Int) }) := by
  unfold aggregateStats entriesFor
  rw [findStat_finalize, foldl_mergeOne_flatten, findStat_foldl_mergeOne]
  rfl

/-! ## C1 -/

/-- C1: for every identity present in the final aggregate, the finalized
Commits field is the cardinality of the union of the per-file
commit-identifier sets attributed to that identity across all processed
files (never the sum of the per-file counts). -/
theorem C1_commits_card_of_union (results : List StatsMap) (a : String) (s : ActorStats)
    (h : findStat (aggregateStats results) a = some s) :
    s.commits = ((unionCommits a results).card : Int) := by
  rw [findStat_aggregate] at h
  cases hE : entriesFor a results with
  | nil =>
    rw [hE] at h
    simp at h
  | cons e es =>
    rw [hE, foldl_combineCell_cons] at h
    rw [Option.map_some'] at h
    obtain rfl : _ = s := Option.some.inj h
    show ((unionList (List.map (fun x => x.2.commitsSet) (e :: es))).card : Int) = _
    simp only [unionCommits, hE]

/-- Witness for C1: one identity with the same commit id in two different
files has Commits one, not two. -/
theorem C1_commits_card_of_union_witness :
    statA7.commits = ((unionCommits "A" resTwoFiles).card : Int) ∧
    (unionCommits "A" resTwoFiles).card = 1 :=
  ⟨C1_commits_card_of_union resTwoFiles "A" statA7 (by decide), by decide⟩

/-! ## C2 -/

theorem unionList_perm (l1 l2 : List (Finset String)) (h : l1.Perm l2) :
    unionList l1 = unionList l2 := by
  induction h with
  | nil => rfl
  | cons x _ ih => exact congrArg (fun t => x ∪ t) ih
  | swap x y l => exact Finset.union_left_comm y x (unionList l)
  | trans _ _ ih1 ih2 => exact ih1.trans ih2

theorem entriesFor_name (a : String) (rs : List StatsMap)
    (hname : ∀ m ∈ rs, ∀ e ∈ m, (e : String × ActorStats).2.name = e.1) :
    ∀ e ∈ entriesFor a rs, (e : String × ActorStats).2.name = a := by
  intro e he
  unfold entriesFor at he
  rw [List.mem_filter] at he
  obtain ⟨hmem, hkey⟩ := he
  rw [List.mem_flatten] at hmem
  obtain ⟨m, hm, hem⟩ := hmem
  have h1 := hname m hm e hem
  have h2 : e.1 = a := by simpa using hkey
  exact h1.trans h2

/-- C2: for fixed per-file attribution results, the aggregated mapping is the
same for every order in which the per-file partial results are merged — the
merge of Lines sums, Files sums and commit-set unions is
permutation-invariant, so reruns on unchanged inputs rank identically. -/
theorem C2_aggregate_perm_invariant (rs rs2 : List StatsMap) (hperm : rs.Perm rs2)
    (hname : ∀ m ∈ rs, ∀ e ∈ m, (e : String × ActorStats).2.name = e.1) (a : String) :
    findStat (aggregateStats rs) a = findStat (aggregateStats rs2) a := by
  have hpermE : (entriesFor a rs).Perm (entriesFor a rs2) := by
    unfold entriesFor
    exact (hperm.flatten).filter _
  rw [findStat_aggregate, findStat_aggregate]
  cases hE : entriesFor a rs with
  | nil =>
    have hE2 : entriesFor a rs2 = [] := by
      rw [hE] at hpermE
      exact hpermE.symm.eq_nil
    rw [hE2]
  | cons e es =>
    cases hE2 : entriesFor a rs2 with
    | nil =>
      rw [hE, hE2] at hpermE
      exact absurd hpermE.eq_nil (by simp)
    | cons f fs =>
      rw [foldl_combineCell_cons, foldl_combineCell_cons]
      rw [hE, hE2] at hpermE
      have hne : e.2.name = a := entriesFor_name a rs hname e (by rw [hE]; exact List.mem_cons_self _ _)
      have hname2 : ∀ m ∈ rs2, ∀ e ∈ m, (e : String × ActorStats).2.name = e.1 := by
        intro m hm
        exact hname m (hperm.symm.subset hm)
      have hnf : f.2.name = a :=
        entriesFor_name a rs2 hname2 f (by rw [hE2]; exact List.mem_cons_self _ _)
      have hsuml : (List.map (fun x => x.2.lines) (e :: es)).sum =
          (List.map (fun x => x.2.lines) (f :: fs)).sum :=
        (hpermE.map (fun x => x.2.lines)).sum_eq
      have hsumf : (List.map (fun x => x.2.files) (e :: es)).sum =
          (List.map (fun x => x.2.files) (f :: fs)).sum :=
        (hpermE.map (fun x => x.2.files)).sum_eq
      have hun : unionList (List.map (fun x => x.2.commitsSet) (e :: es)) =
          unionList (List.map (fun x => x.2.commitsSet) (f :: fs)) :=
        unionList_perm _ _ (hpermE.map (fun x => x.2.commitsSet))
      simp only [Option.map_some']
      rw [hne, hnf, hsuml, hsumf, hun]

/-- Witness for C2 at a two-file result list merged in both orders. -/
theorem C2_aggregate_perm_invariant_witness :
    findStat (aggregateStats resTwoFiles) "A" =
      findStat (aggregateStats resTwoFilesRev) "A" :=
  C2_aggregate_perm_invariant resTwoFiles resTwoFilesRev (by decide) (by decide) "A"

/-! ## C6 -/

/-- C6: a file whose blame succeeds with zero attributable lines takes the
fallback path: one entry for the identity of the last touching commit, Lines
zero, the singleton commit set, Files one; aggregating that single result
finalizes Commits to one. -/
theorem C6_empty_file_fallback (uc : Bool) (l hash actor : String) (rest : List String)
    (hsplit : goSplit l '\n' = hash :: actor :: rest) :
    calculateStats (some "") (some l) uc =
      some [(actor,
        { name := actor, lines := 0, commitsSet := {hash}, commits := 0, files := 1 })] ∧
    findStat
      (aggregateStats
        [[(actor,
           { name := actor, lines := 0, commitsSet := {hash}, commits := 0, files := 1 })]])
      actor =
      some { name := actor, lines := 0, commitsSet := {hash}, commits := 1, files := 1 } := by
  constructor
  · show (match infoEmptyFile (some l) with
          | none => none
          | some stats => some [(stats.name, stats)]) = _
    rw [show infoEmptyFile (some l) =
        some { name := actor, lines := 0, commitsSet := {hash}, commits := 0, files := 1 } from by
      simp only [infoEmptyFile, hsplit]]
  · rw [findStat_aggregate]
    rw [show entriesFor actor
        [[(actor,
           { name := actor, lines := 0, commitsSet := {hash}, commits := 0, files := 1 })]] =
        [(actor,
          { name := actor, lines := 0, commitsSet := {hash}, commits := 0, files := 1 })] from by
      simp [entriesFor]]
    rw [foldl_combineCell_cons]
    simp [unionList]

/-- Witness for C6: the Carol example of the spec. -/
theorem C6_empty_file_fallback_witness :
    calculateStats (some "") (some "abc\nCarol") false = some [("Carol", statCarol)] ∧
    findStat (aggregateStats [[("Carol", statCarol)]]) "Carol" =
      some { name := "Carol", lines := 0, commitsSet := {"abc"}, commits := 1, files := 1 } :=
  C6_empty_file_fallback false "abc\nCarol" "abc" "Carol" [] (by decide)

/-! ## C7 -/

/-- Counterexample to C7 as stated: when blame succeeds with empty output and
the fallback log query fails, the extractor does not return the empty
mapping — it returns one zero-valued entry under the empty identity. -/
theorem C7_counterexample :
    ¬ (calculateStats (some "") none false = some []) ∧
    calculateStats (some "") none false = some [("", ActorStats.zero)] := by
  constructor
  · intro h
    exact absurd (Option.some.inj h) (by decide)
  · decide

/-- C7 amended: a blame failure yields the empty mapping; a fallback (log)
failure instead yields a single zero entry for the empty identity; in both
cases the aggregate of every other identity is exactly as if the failed file
were absent, and aggregation still completes. -/
theorem C7_failures_amended (uc : Bool) (lo : Option String) (rs : List StatsMap)
    (a : String) (ha : a ≠ "") :
    calculateStats none lo uc = some [] ∧
    calculateStats (some "") none uc = some [("", ActorStats.zero)] ∧
    findStat (aggregateStats (rs ++ [[]])) a = findStat (aggregateStats rs) a ∧
    findStat (aggregateStats (rs ++ [[("", ActorStats.zero)]])) a =
      findStat (aggregateStats rs) a := by
  refine ⟨rfl, rfl, ?_, ?_⟩
  · rw [findStat_aggregate, findStat_aggregate]
    rw [show entriesFor a (rs ++ [[]]) = entriesFor a rs from by
      simp [entriesFor]]
  · rw [findStat_aggregate, findStat_aggregate]
    rw [show entriesFor a (rs ++ [[("", ActorStats.zero)]]) = entriesFor a rs from by
      simp [entriesFor, Ne.symm ha]]

/-- Witness for C7 amended at concrete inputs. -/
theorem C7_failures_amended_witness :
    calculateStats none none false = some [] ∧
    calculateStats (some "") none false = some [("", ActorStats.zero)] ∧
    findStat (aggregateStats (resTwoFiles ++ [[]])) "A" =
      findStat (aggregateStats resTwoFiles) "A" ∧
    findStat (aggregateStats (resTwoFiles ++ [[("", ActorStats.zero)]])) "A" =
      findStat (aggregateStats resTwoFiles) "A" :=
  C7_failures_amended false none resTwoFiles "A" (by decide)

/-! ## Scanning-loop invariants -/

theorem updateStats_entries (acc : StatsMap) (actor hash : String) (n : Int)
    (hacc : ∀ p ∈ acc, p.2.name = p.1 ∧ p.2.files = 1) :
    ∀ p ∈ updateStats acc actor hash n, p.2.name = p.1 ∧ p.2.files = 1 := by
  intro p hp
  unfold updateStats at hp
  rcases mem_insertStat _ _ _ _ hp with h1 | h1
  · subst h1
    refine ⟨rfl, ?_⟩
    cases hb : findStat acc actor with
    | some s => simpa [hb] using (hacc (actor, s) (findStat_mem _ _ _ hb)).2
    | none => simp [hb]
  · exact hacc p h1

theorem csLoop_entries (uc : Bool) (n : Nat) :
    ∀ (lines : List String) (acc m : StatsMap),
      lines.length ≤ n →
      (∀ p ∈ acc, p.2.name = p.1 ∧ p.2.files = 1) →
      csLoop uc lines acc = some m →
      ∀ p ∈ m, p.2.name = p.1 ∧ p.2.files = 1 := by
  induction n with
  | zero =>
    intro lines acc m hlen hacc h
    cases lines with
    | nil =>
      obtain rfl : acc = m := Option.some.inj h
      exact hacc
    | cons a b => simp at hlen
  | succ n ih =>
    intro lines acc m hlen hacc h
    cases lines with
    | nil =>
      obtain rfl : acc = m := Option.some.inj h
      exact hacc
    | cons li rest =>
      cases rest with
      | nil =>
        rw [csLoop.eq_2] at h
        by_cases hm : commitLineMatch li
        · rw [if_pos hm] at h
          cases hps : goSplit li ' ' with
          | nil => simp [hps] at h
          | cons c0 t =>
            simp only [hps] at h
            cases hp3 : (c0 :: t)[3]? with
            | none => simp [hp3] at h
            | some p3 =>
              simp only [hp3] at h
              cases hatoi : goAtoi p3 with
              | none =>
                simp only [hatoi] at h
                obtain rfl : acc = m := Option.some.inj h
                exact hacc
              | some nl => simp [hatoi] at h
        · rw [if_neg hm] at h
          obtain rfl : acc = m := Option.some.inj h
          exact hacc
      | cons r1 rest2 =>
        rw [csLoop.eq_3] at h
        by_cases hm : commitLineMatch li
        · rw [if_pos hm] at h
          cases hps : goSplit li ' ' with
          | nil => simp [hps] at h
          | cons c0 t =>
            simp only [hps] at h
            cases hp3 : (c0 :: t)[3]? with
            | none => simp [hp3] at h
            | some p3 =>
              simp only [hp3] at h
              cases hatoi : goAtoi p3 with
              | none =>
                simp only [hatoi] at h
                exact ih rest2 acc m (by simp at hlen ⊢; omega) hacc h
              | some nl =>
                simp only [hatoi, List.getElem?_cons_zero] at h
                by_cases huc : uc = true
                · rw [if_pos huc] at h
                  cases h4 : (r1 :: rest2)[4]? with
                  | none => simp [h4] at h
                  | some l5 =>
                    simp only [h4, Option.map_some'] at h
                    refine ih (r1 :: rest2) _ m (by simp at hlen ⊢; omega) ?_ h
                    exact updateStats_entries _ _ _ _ hacc
                · rw [if_neg huc] at h
                  refine ih (r1 :: rest2) _ m (by simp at hlen ⊢; omega) ?_ h
                  exact updateStats_entries _ _ _ _ hacc
        · rw [if_neg hm] at h
          exact ih (r1 :: rest2) acc m (by simp at hlen ⊢; omega) hacc h

theorem infoEmptyFile_files (l : String) (stats : ActorStats)
    (h : infoEmptyFile (some l) = some stats) : stats.files = 1 := by
  cases hs : goSplit l '\n' with
  | nil => simp [infoEmptyFile, hs] at h
  | cons c1 t =>
    cases t with
    | nil => simp [infoEmptyFile, hs] at h
    | cons c2 t2 =>
      simp only [infoEmptyFile, hs] at h
      obtain rfl :
          ({ name := c2, lines := 0, commitsSet := {c1}, commits := 0, files := 1 } :
            ActorStats) = stats := Option.some.inj h
      rfl

/-! ## C5 -/

/-- C5: every identity of a per-file extraction result carries a Files count
of exactly one, even when the identity owns several separate line runs of the
file, so each processed file adds exactly one to the aggregate Files of each
of its identities. The hypothesis excludes only the degenerate path in which
both the blame output is empty and the fallback log query failed — a file
with no attribution records at all. -/
theorem C5_per_file_files_one (uc : Bool) (out : String) (logOut : Option String)
    (m : StatsMap) (h : calculateStats (some out) logOut uc = some m)
    (hcase : out ≠ "" ∨ logOut ≠ none) :
    ∀ p ∈ m, p.2.files = 1 := by
  simp only [calculateStats] at h
  by_cases hout : out = ""
  · rw [if_pos hout] at h
    cases logOut with
    | none =>
      rcases hcase with hc | hc
      · exact absurd hout hc
      · exact absurd rfl hc
    | some l =>
      cases hif : infoEmptyFile (some l) with
      | none => rw [hif] at h; simp at h
      | some stats =>
        rw [hif] at h
        obtain rfl : [(stats.name, stats)] = m := Option.some.inj h
        intro p hp
        obtain rfl : p = (stats.name, stats) := List.mem_singleton.mp hp
        exact infoEmptyFile_files l stats hif
  · rw [if_neg hout] at h
    intro p hp
    exact (csLoop_entries uc (goSplit out '\n').length (goSplit out '\n') [] m le_rfl
      (by intro q hq; simp at hq) h p hp).2

/-- Witness for C5: Bob with one two-line record in one file. -/
theorem C5_per_file_files_one_witness :
    (("Bob", statBob) : String × ActorStats).2.files = 1 :=
  C5_per_file_files_one false blameBob none [("Bob", statBob)] (by decide)
    (Or.inl (by decide)) ("Bob", statBob) (by decide)

/-! ## C8 -/

/-- C8: when one record header parses (the regexp matches) but its line-count
field is not a number, the loop skips exactly that record — the header line
and the line after it — and continues scanning the remaining lines with the
accumulator unchanged, so every remaining record is still processed. -/
theorem C8_parse_failure_local (uc : Bool) (hbad next : String) (rest : List String)
    (acc : StatsMap) (p3 : String)
    (hm : commitLineMatch hbad = true)
    (hp : (goSplit hbad ' ')[3]? = some p3)
    (hfail : goAtoi p3 = none) :
    csLoop uc (hbad :: next :: rest) acc = csLoop uc rest acc := by
  cases hps : goSplit hbad ' ' with
  | nil => rw [hps] at hp; simp at hp
  | cons c0 t =>
    rw [hps] at hp
    simp only [csLoop, hm, if_true, hps, hp, hfail]

/-- Witness for C8: a bad record between two good ones is skipped and the
good record after it is still processed. -/
theorem C8_parse_failure_local_witness :
    csLoop false [hdrBad, "author X", hdrGood, "author Ann"] [] =
      csLoop false [hdrGood, "author Ann"] [] :=
  C8_parse_failure_local false hdrBad "author X" [hdrGood, "author Ann"] [] "1x"
    (by decide) (by decide) (by decide)

/-! ## C10 -/

theorem headerOk_tail (uc : Bool) (l : String) (ls : List String)
    (h : headerOk uc (l :: ls)) : headerOk uc ls := by
  intro i hi hm
  rw [List.mem_range] at hi
  have h2 := h (i + 1) (by rw [List.mem_range]; simp; omega) (by simpa using hm)
  refine ⟨by simpa using h2.1, ?_, ?_⟩
  · have := h2.2.1
    simp at this ⊢
    omega
  · intro hu
    have := h2.2.2 hu
    simp at this ⊢
    omega

theorem csLoop_total (uc : Bool) (n : Nat) :
    ∀ (lines : List String) (acc : StatsMap),
      lines.length ≤ n → headerOk uc lines →
      csLoop uc lines acc ≠ none := by
  induction n with
  | zero =>
    intro lines acc hlen _
    cases lines with
    | nil => simp [csLoop]
    | cons a b => simp at hlen
  | succ n ih =>
    intro lines acc hlen hwf h
    cases lines with
    | nil => simp [csLoop] at h
    | cons li rest =>
      cases rest with
      | nil =>
        by_cases hm : commitLineMatch li
        · have h0 := hwf 0 (by rw [List.mem_range]; simp) (by simpa using hm)
          obtain ⟨hp3, hlt1, hltuc⟩ := h0
          simp at hlt1
        · rw [csLoop.eq_2, if_neg hm] at h
          simp [csLoop] at h
      | cons r1 rest2 =>
        rw [csLoop.eq_3] at h
        by_cases hm : commitLineMatch li
        · rw [if_pos hm] at h
          have h0 := hwf 0 (by rw [List.mem_range]; simp) (by simpa using hm)
          obtain ⟨hp3, hlt1, hltuc⟩ := h0
          simp only [List.getD_cons_zero] at hp3
          obtain ⟨p3, hp3e⟩ := Option.isSome_iff_exists.mp hp3
          cases hps : goSplit li ' ' with
          | nil => rw [hps] at hp3e; simp at hp3e
          | cons c0 t =>
            rw [hps] at hp3e
            simp only [hps] at h
            simp only [hp3e] at h
            have htail : headerOk uc (r1 :: rest2) := headerOk_tail uc li (r1 :: rest2) hwf
            have hlen2 : (r1 :: rest2).length ≤ n := by simp at hlen ⊢; omega
            cases hatoi : goAtoi p3 with
            | none =>
              simp only [hatoi] at h
              exact ih rest2 acc (by simp at hlen ⊢; omega)
                (headerOk_tail uc r1 rest2 htail) h
            | some nl =>
              simp only [hatoi, List.getElem?_cons_zero] at h
              by_cases huc : uc = true
              · rw [if_pos huc] at h
                have h4lt : 4 < (r1 :: rest2).length := by
                  have := hltuc huc
                  simp at this ⊢
                  omega
                cases h4 : (r1 :: rest2)[4]? with
                | none =>
                  rw [List.getElem?_eq_getElem h4lt] at h4
                  simp at h4
                | some l5 =>
                  simp only [h4, Option.map_some'] at h
                  exact ih (r1 :: rest2) _ hlen2 htail h
              · rw [if_neg huc] at h
                exact ih (r1 :: rest2) _ hlen2 htail h
        · rw [if_neg hm] at h
          exact ih (r1 :: rest2) acc (by simp at hlen ⊢; omega)
            (headerOk_tail uc li (r1 :: rest2) hwf) h

/-- Counterexample to C10 as stated: the parser does not check that the
offsets it reads exist, so extraction can panic — a blame output consisting
of a single matching header line with a parseable count reads lines at
offset one past the end, and a log output with a single newline-separated
field makes the fallback parser read its second field past the end; both are
the none (panic) result. -/
theorem C10_counterexample :
    calculateStats (some hdrA) none false = none ∧
    calculateStats (some "") (some "deadbeef") false = none := by
  constructor
  · decide
  · decide

/-- C10 amended: well-formedness of the collaborator output is sufficient
for panic-freedom — when every line matched as a record header has a fourth
space-separated field and at least one following line (five when
UseCommitter), the scanning loop returns a result rather than panicking, and
the fallback parser returns a result whenever the log output has at least
two newline-separated fields. The condition is not necessary: a blame output
whose sole line is a matching header with an unparseable count field is
handled by the Atoi-failure skip, which performs no offset read and returns
the accumulator unchanged. -/
theorem C10_no_panic_amended (uc : Bool) (lines : List String) (l : String)
    (hwf : headerOk uc lines) (hl : 2 ≤ (goSplit l '\n').length) :
    (csLoop uc lines []).isSome = true ∧ (infoEmptyFile (some l)).isSome = true ∧
    (∀ (li : String) (acc : StatsMap) (p3 : String),
      commitLineMatch li = true → (goSplit li ' ')[3]? = some p3 → goAtoi p3 = none →
      csLoop uc [li] acc = some acc) := by
  refine ⟨?_, ?_, ?_⟩
  · exact Option.ne_none_iff_isSome.mp (csLoop_total uc lines.length lines [] le_rfl hwf)
  · cases hs : goSplit l '\n' with
    | nil => rw [hs] at hl; simp at hl
    | cons c1 t =>
      cases t with
      | nil => rw [hs] at hl; simp at hl
      | cons c2 t2 => simp [infoEmptyFile, hs]
  · intro li acc p3 hm hp hfail
    cases hps : goSplit li ' ' with
    | nil => rw [hps] at hp; simp at hp
    | cons c0 t =>
      rw [hps] at hp
      rw [csLoop.eq_2, if_pos hm]
      simp only [hps, hp, hfail]

/-- Witness for C10 amended: a well-formed blame record and log output
extract without panic, and the sole unparseable-count header is skipped
without any offset read. -/
theorem C10_no_panic_amended_witness :
    (csLoop false [hdrA, "author Bob"] []).isSome = true ∧
    (infoEmptyFile (some "abc\nCarol")).isSome = true ∧
    csLoop false [hdrBad] [] = some [] :=
  ⟨(C10_no_panic_amended false [hdrA, "author Bob"] "abc\nCarol" (by decide) (by decide)).1,
   (C10_no_panic_amended false [hdrA, "author Bob"] "abc\nCarol" (by decide) (by decide)).2.1,
   (C10_no_panic_amended false [hdrA, "author Bob"] "abc\nCarol" (by decide) (by decide)).2.2
     hdrBad [] "1x" (by decide) (by decide) (by decide)⟩

/-! ## C9 -/

/-- Counterexample to C9 as stated: with language go registered for extension
dot-go, the path foo.o is rejected by the code (HasSuffix on the Ext including
the dot), yet the portion after the last dot, the letter o, does share a
non-empty common suffix with the registered extension — so the claimed iff
fails at this input. -/
theorem C9_counterexample :
    matchesLanguage "foo.o" cfgGo = false ∧ claimLanguagePasses "foo.o" cfgGo = true := by
  constructor
  · decide
  · decide

/-- C9 amended: the language allow-list predicate passes iff the list is
empty, or the filepath.Ext of the path (including the leading dot) ends with
an extension registered for some requested language, the language name
lowercased before the table lookup. -/
theorem C9_language_amended (path : String) (config : Config) :
    matchesLanguage path config = true ↔
      (config.languages = [] ∨ ∃ lang ∈ config.languages, ∃ exts,
        mapLookup config.extensionsMap (goToLower lang) = some exts ∧
        ∃ e ∈ exts, goHasSuffix (goExt path) e = true) := by
  unfold matchesLanguage
  by_cases hemp : config.languages.isEmpty
  · rw [if_pos hemp]
    simp [List.isEmpty_iff.mp hemp]
  · rw [if_neg hemp]
    rw [List.any_eq_true]
    constructor
    · rintro ⟨lang, hlang, hmatch⟩
      refine Or.inr ⟨lang, hlang, ?_⟩
      cases hlk : mapLookup config.extensionsMap (goToLower lang) with
      | none => simp [hlk] at hmatch
      | some exts =>
        simp only [hlk] at hmatch
        rw [List.any_eq_true] at hmatch
        obtain ⟨e, he, hsuf⟩ := hmatch
        exact ⟨exts, rfl, e, he, hsuf⟩
    · rintro (hnil | ⟨lang, hlang, exts, hlk, e, he, hsuf⟩)
      · exact absurd (by simp [hnil] : config.languages.isEmpty = true) hemp
      · refine ⟨lang, hlang, ?_⟩
        simp only [hlk]
        rw [List.any_eq_true]
        exact ⟨e, he, hsuf⟩

/-! ## C4 -/

/-- C4: the multiset of paths emitted by the filter stage contains each input
path exactly once when it satisfies the conjunction of the four predicates
and zero times otherwise, each predicate vacuously true on an empty list; the
model is a total function of the whole input list, so the stream it stands
for is complete — closed only once every input file has been evaluated. -/
theorem C4_filter_stage (files : List String) (config : Config) (f : String)
    (hnd : files.Nodup) :
    (parallelFilter files config).count f =
      (if f ∈ files ∧
          (matchesExtensions f config.extensions &&
           matchesExcludePatterns f config.exclude &&
           matchesRestrictToPatterns f config.restrictTo &&
           matchesLanguage f config) = true
       then 1 else 0) ∧
    (∀ g : String, matchesExtensions g [] = true) ∧
    (∀ g : String, matchesExcludePatterns g [] = true) ∧
    (∀ g : String, matchesRestrictToPatterns g [] = true) ∧
    (∀ (g : String) (c2 : Config), c2.languages = [] → matchesLanguage g c2 = true) := by
  refine ⟨?_, fun g => rfl, fun g => rfl, fun g => rfl, fun g c2 hl => ?_⟩
  · unfold parallelFilter
    by_cases hp : passesFilter f config = true
    · by_cases hf : f ∈ files
      · rw [List.count_eq_one_of_mem (hnd.filter _) (List.mem_filter.mpr ⟨hf, hp⟩),
          if_pos ⟨hf, hp⟩]
      · have hnot : f ∉ files.filter (fun file => passesFilter file config) := fun hmem =>
          hf (List.mem_filter.mp hmem).1
        rw [List.count_eq_zero_of_not_mem hnot, if_neg (fun hc => hf hc.1)]
    · have hnot : f ∉ files.filter (fun file => passesFilter file config) := fun hmem =>
        hp (List.mem_filter.mp hmem).2
      rw [List.count_eq_zero_of_not_mem hnot, if_neg (fun hc => hp hc.2)]
  · unfold matchesLanguage
    rw [if_pos (by simp [hl])]

/-- Witness for C4 at a two-file list with an extension filter. -/
theorem C4_filter_stage_witness :
    (parallelFilter ["a.go", "b.txt"] cfgExt).count "a.go" =
      (if "a.go" ∈ ["a.go", "b.txt"] ∧
          (matchesExtensions "a.go" cfgExt.extensions &&
           matchesExcludePatterns "a.go" cfgExt.exclude &&
           matchesRestrictToPatterns "a.go" cfgExt.restrictTo &&
           matchesLanguage "a.go" cfgExt) = true
       then 1 else 0) :=
  (C4_filter_stage ["a.go", "b.txt"] cfgExt "a.go" (by decide)).1

/-! ## C3 -/

theorem charListLt_irrefl : ∀ a : List Char, charListLt a a = false := by
  intro a
  induction a with
  | nil => rfl
  | cons ah t ih =>
    simp only [charListLt]
    rw [if_neg (lt_irrefl ah), if_neg (lt_irrefl ah)]
    exact ih

theorem charListLt_trans : ∀ a b c : List Char,
    charListLt a b = true → charListLt b c = true → charListLt a c = true := by
  intro a
  induction a with
  | nil =>
    intro b c hab hbc
    cases b with
    | nil => simp [charListLt] at hab
    | cons bh bt =>
      cases c with
      | nil => simp [charListLt] at hbc
      | cons ch ct => rfl
  | cons ah t ih =>
    intro b c hab hbc
    cases b with
    | nil => simp [charListLt] at hab
    | cons bh bt =>
      cases c with
      | nil => simp [charListLt] at hbc
      | cons ch ct =>
        simp only [charListLt] at hab hbc ⊢
        by_cases h1 : ah < bh
        · by_cases h2 : bh < ch
          · rw [if_pos (lt_trans h1 h2)]
          · by_cases h3 : ch < bh
            · rw [if_neg h2, if_pos h3] at hbc
              exact absurd hbc (by simp)
            · have he : bh = ch := le_antisymm (not_lt.mp h3) (not_lt.mp h2)
              rw [if_pos (he ▸ h1)]
        · by_cases h1b : bh < ah
          · rw [if_neg h1, if_pos h1b] at hab
            exact absurd hab (by simp)
          · have he : ah = bh := le_antisymm (not_lt.mp h1b) (not_lt.mp h1)
            subst he
            rw [if_neg h1, if_neg h1b] at hab
            by_cases h2 : ah < ch
            · rw [if_pos h2]
            · by_cases h3 : ch < ah
              · rw [if_neg h2, if_pos h3] at hbc
                exact absurd hbc (by simp)
              · rw [if_neg h2, if_neg h3] at hbc ⊢
                exact ih bt ct hab hbc

theorem charListLt_conn : ∀ a b : List Char,
    charListLt a b = true ∨ charListLt b a = true ∨ a = b := by
  intro a
  induction a with
  | nil =>
    intro b
    cases b with
    | nil => exact Or.inr (Or.inr rfl)
    | cons bh bt => exact Or.inl rfl
  | cons ah t ih =>
    intro b
    cases b with
    | nil => exact Or.inr (Or.inl rfl)
    | cons bh bt =>
      rcases lt_trichotomy ah bh with hlt | heq | hgt
      · left
        simp only [charListLt]
        rw [if_pos hlt]
      · subst heq
        rcases ih bt with h | h | h
        · left
          simp only [charListLt]
          rw [if_neg (lt_irrefl ah), if_neg (lt_irrefl ah)]
          exact h
        · right
          left
          simp only [charListLt]
          rw [if_neg (lt_irrefl ah), if_neg (lt_irrefl ah)]
          exact h
        · right
          right
          rw [h]
      · right
        left
        simp only [charListLt]
        rw [if_pos hgt]

theorem lessCfg_lines_eq : ∀ x y : ActorStats, lessCfg "lines" x y = specLinesLess x y := by
  intro x y
  unfold lessCfg specLinesLess
  by_cases h1 : x.commits = y.commits ∧ x.lines = y.lines ∧ x.files = y.files
  · obtain ⟨hc, hl, hf⟩ := h1
    rw [if_pos ⟨hc, hl, hf⟩, if_neg (not_not_intro hl), if_neg (not_not_intro hc),
      if_neg (not_not_intro hf)]
  · rw [if_neg h1, if_neg (by decide : ¬(("lines" : String) = "commits")),
      if_neg (by decide : ¬(("lines" : String) = "files"))]
    by_cases hl : x.lines ≠ y.lines
    · rw [if_pos hl, if_pos hl]
    · rw [if_neg hl, if_neg hl]
      by_cases hc : x.commits ≠ y.commits
      · rw [if_pos hc, if_pos hc]
      · rw [if_neg hc, if_neg hc]
        have hf : x.files ≠ y.files := fun hfe => h1 ⟨not_not.mp hc, not_not.mp hl, hfe⟩
        rw [if_pos hf]

theorem lessCfg_commits_eq : ∀ x y : ActorStats,
    lessCfg "commits" x y = specCommitsLess x y := by
  intro x y
  unfold lessCfg specCommitsLess
  by_cases h1 : x.commits = y.commits ∧ x.lines = y.lines ∧ x.files = y.files
  · obtain ⟨hc, hl, hf⟩ := h1
    rw [if_pos ⟨hc, hl, hf⟩, if_neg (not_not_intro hc), if_neg (not_not_intro hl),
      if_neg (not_not_intro hf)]
  · rw [if_neg h1, if_pos (rfl : ("commits" : String) = "commits")]
    by_cases hc : x.commits ≠ y.commits
    · rw [if_pos hc, if_pos hc]
    · rw [if_neg hc, if_neg hc]
      by_cases hl : x.lines ≠ y.lines
      · rw [if_pos hl, if_pos hl]
      · rw [if_neg hl, if_neg hl]
        have hf : x.files ≠ y.files := fun hfe => h1 ⟨not_not.mp hc, not_not.mp hl, hfe⟩
        rw [if_pos hf]

theorem lessCfg_files_eq : ∀ x y : ActorStats, lessCfg "files" x y = specFilesLess x y := by
  intro x y
  unfold lessCfg specFilesLess
  by_cases h1 : x.commits = y.commits ∧ x.lines = y.lines ∧ x.files = y.files
  · obtain ⟨hc, hl, hf⟩ := h1
    rw [if_pos ⟨hc, hl, hf⟩, if_neg (not_not_intro hf), if_neg (not_not_intro hl),
      if_neg (not_not_intro hc)]
  · rw [if_neg h1, if_neg (by decide : ¬(("files" : String) = "commits")),
      if_pos (rfl : ("files" : String) = "files")]
    by_cases hf : x.files ≠ y.files
    · rw [if_pos hf, if_pos hf]
    · rw [if_neg hf, if_neg hf]
      by_cases hl : x.lines ≠ y.lines
      · rw [if_pos hl, if_pos hl]
      · rw [if_neg hl, if_neg hl]
        have hc : x.commits ≠ y.commits := fun hce => h1 ⟨hce, not_not.mp hl, not_not.mp hf⟩
        rw [if_pos hc]

theorem specLinesLess_trans (x y z : ActorStats) (hxy : specLinesLess x y = true)
    (hyz : specLinesLess y z = true) : specLinesLess x z = true := by
  unfold specLinesLess at hxy hyz ⊢
  split_ifs at hxy hyz ⊢ <;>
    simp only [ne_eq, decide_eq_true_eq, not_not] at * <;>
    first
      | omega
      | (exact charListLt_trans _ _ _ hxy hyz)
      | rfl

theorem specLinesLess_conn (x y : ActorStats) :
    specLinesLess x y = true ∨ specLinesLess y x = true ∨
      (x.lines = y.lines ∧ x.commits = y.commits ∧ x.files = y.files ∧ x.name = y.name) := by
  by_cases hl : x.lines = y.lines
  · by_cases hc : x.commits = y.commits
    · by_cases hf : x.files = y.files
      · rcases charListLt_conn x.name.data y.name.data with h | h | h
        · left
          unfold specLinesLess
          rw [if_neg (not_not_intro hl), if_neg (not_not_intro hc),
            if_neg (not_not_intro hf)]
          exact h
        · right
          left
          unfold specLinesLess
          rw [if_neg (not_not_intro hl.symm), if_neg (not_not_intro hc.symm),
            if_neg (not_not_intro hf.symm)]
          exact h
        · right
          right
          exact ⟨hl, hc, hf, congrArg String.mk h⟩
      · rcases lt_or_gt_of_ne hf with hlt | hgt
        · right
          left
          unfold specLinesLess
          rw [if_neg (not_not_intro hl.symm), if_neg (not_not_intro hc.symm),
            if_pos (Ne.symm hf)]
          simp only [decide_eq_true_eq]
          omega
        · left
          unfold specLinesLess
          rw [if_neg (not_not_intro hl), if_neg (not_not_intro hc), if_pos hf]
          simp only [decide_eq_true_eq]
          omega
    · rcases lt_or_gt_of_ne hc with hlt | hgt
      · right
        left
        unfold specLinesLess
        rw [if_neg (not_not_intro hl.symm), if_pos (Ne.symm hc)]
        simp only [decide_eq_true_eq]
        omega
      · left
        unfold specLinesLess
        rw [if_neg (not_not_intro hl), if_pos hc]
        simp only [decide_eq_true_eq]
        omega
  · rcases lt_or_gt_of_ne hl with hlt | hgt
    · right
      left
      unfold specLinesLess
      rw [if_pos (Ne.symm hl)]
      simp only [decide_eq_true_eq]
      omega
    · left
      unfold specLinesLess
      rw [if_pos hl]
      simp only [decide_eq_true_eq]
      omega

/-- C3: sortByConfig orders by a strict total order — the comparator is
exactly the cascade primary key descending, remaining numeric keys descending
in the fixed order, Name ascending as the last tie break (shown for all three
orderBy values against the cascades written from the spec); for orderBy lines
it is transitive, irreflexive, and total up to equal quadruples, and the
three regression actors sort as Bob, Alice, Zoe. -/
theorem C3_rank_total_order :
    (∀ x y, lessCfg "lines" x y = specLinesLess x y) ∧
    (∀ x y, lessCfg "commits" x y = specCommitsLess x y) ∧
    (∀ x y, lessCfg "files" x y = specFilesLess x y) ∧
    (∀ x y z, lessCfg "lines" x y = true → lessCfg "lines" y z = true →
      lessCfg "lines" x z = true) ∧
    (∀ x, lessCfg "lines" x x = false) ∧
    (∀ x y, lessCfg "lines" x y = true ∨ lessCfg "lines" y x = true ∨
      (x.lines = y.lines ∧ x.commits = y.commits ∧ x.files = y.files ∧
        x.name = y.name)) ∧
    sortByConfig [actorAlice, actorZoe, actorBob] "lines" =
      [actorBob, actorAlice, actorZoe] := by
  refine ⟨lessCfg_lines_eq, lessCfg_commits_eq, lessCfg_files_eq, ?_, ?_, ?_, by decide⟩
  · intro x y z hxy hyz
    rw [lessCfg_lines_eq] at hxy hyz ⊢
    exact specLinesLess_trans x y z hxy hyz
  · intro x
    unfold lessCfg
    rw [if_pos ⟨rfl, rfl, rfl⟩]
    exact charListLt_irrefl _
  · intro x y
    rw [lessCfg_lines_eq, lessCfg_lines_eq]
    exact specLinesLess_conn x y

/-- Witness for C3: transitivity applied at the three regression actors. -/
theorem C3_rank_total_order_witness :
    lessCfg "lines" actorBob actorZoe = true ∧
    sortByConfig [actorAlice, actorZoe, actorBob] "lines" =
      [actorBob, actorAlice, actorZoe] :=
  ⟨C3_rank_total_order.2.2.2.1 actorBob actorAlice actorZoe (by decide) (by decide),
   C3_rank_total_order.2.2.2.2.2.2⟩

end Gitfame
